import Mathlib

/-!
Verification of the DVRF-then-Sign core against its design document.

Shallow embedding of the Rust sources:
  * src/src/utils.rs    : Keccak helpers, hash-to-scalar / hash-to-curve,
                          Lagrange combination in the exponent, the Fiat-Shamir
                          DDH-equality NIZK (prove_eq / verify_eq).
  * src/src/ddh_dvrf.rs : key-package projection and the single-round DVRF
                          orchestrator run_ddh_dvrf_once.
  * src/src/dkg.rs      : DkgConfig::new validation.

Modelling conventions.  The secp256k1 scalar type k256::Scalar (integers
modulo the prime group order r) is modelled by an abstract field F; for
F = ZMod r every operation below coincides with the source operation, and
Nat.cast into F models big-endian reduction modulo r.  The curve group
k256::ProjectivePoint is a cyclic group of prime order r acted on by scalars;
it is modelled by an F-module P with a distinguished generator G
(ProjectivePoint::GENERATOR).  Bytes are naturals; byte strings are lists.
Keccak-256 (crate tiny_keccak) and SEC1 compression (crate k256) are external
byte-level primitives and are modelled as abstract function parameters
keccak256 and point_bytes_compressed; no claim here depends on their internals.
A Rust panic (CtOption::unwrap, BTreeMap::get(..).expect, assert!) is modelled
as Option.none threaded through Option-valued functions.
-/

namespace DvrfSpec

variable (F : Type) [Field F] [DecidableEq F]
variable {P : Type} [AddCommGroup P] [Module F P]
variable (G : P)
variable (keccak256 : List Nat → List Nat)
variable (point_bytes_compressed : P → List Nat)

/-- Big-endian interpretation of a byte list as a natural number; the integer
read off by k256 before modular reduction. -/
def bytesToNatBE (l : List Nat) : Nat :=
  l.foldl (fun acc b => acc * 256 + b) 0

/-- Model of `<Scalar as Reduce<U256>>::reduce_bytes`: interpret the bytes in
big-endian and reduce modulo the group order r.  For F = ZMod r the Nat cast
is exactly reduction mod r. -/
def reduce_bytes (l : List Nat) : F :=
  (bytesToNatBE l : F)

/-- utils.rs `hash_to_scalar_keccak`: reduce keccak256(data) modulo r. -/
def hash_to_scalar_keccak (data : List Nat) : F :=
  reduce_bytes F (keccak256 data)

/-- utils.rs `hash_to_curve_point_keccak`: GENERATOR * hash_to_scalar(data). -/
def hash_to_curve_point_keccak (data : List Nat) : P :=
  hash_to_scalar_keccak F keccak256 data • G

/-- Model of k256 `Scalar::invert`: the CtOption is none exactly on zero.
The caller's `.unwrap()` panic is the propagation of `none`. -/
def scalarInvert (x : F) : Option F :=
  if x = 0 then none else some x⁻¹

/-- The num/den accumulation loop of utils.rs `lagrange_combine_points`:
starting from (ONE, ONE), for each j in ids with i != j multiply num by j and
den by (j - i), both in the scalar field. -/
def lagrangeNumDen (ids : List Nat) (i : Nat) : F × F :=
  ids.foldl
    (fun nd j => if i ≠ j then (nd.1 * (j : F), nd.2 * ((j : F) - (i : F))) else nd)
    (1, 1)

/-- utils.rs `lagrange_combine_points`: ids is the list of all first
components; for each pair (i, p_i) compute lambda_i = num * den.invert().unwrap()
and accumulate result += lambda_i • p_i starting from IDENTITY.  The unwrap
panic (den = 0) is modelled by `none`. -/
def lagrange_combine_points (points : List (Nat × P)) : Option P :=
  let ids := points.map Prod.fst
  points.foldlM
    (fun (result : P) ip =>
      (scalarInvert F (lagrangeNumDen F ids ip.1).2).map
        (fun dinv => result + ((lagrangeNumDen F ids ip.1).1 * dinv) • ip.2))
    (0 : P)

/-- utils.rs `challenge_keccak`: feed the six compressed encodings to one
Keccak-256 sponge in the order g, ph, vk, v, com1, com2, finalize, reduce
modulo r.  The sponge state is the list of bytes absorbed so far; `update`
appends. -/
def challenge_keccak (g ph vk v com1 com2 : P) : F :=
  reduce_bytes F
    (keccak256
      ([g, ph, vk, v, com1, com2].foldl
        (fun acc pp => acc ++ point_bytes_compressed pp) []))

/-- utils.rs `Proof`: the NIZK proof (ch, rs). -/
structure Proof (F : Type) where
  ch : F
  rs : F

/-- utils.rs `prove_eq`.  The nonce r is drawn from OsRng in the source; here
it is an explicit argument, so each choice of nonce is one possible run. -/
def prove_eq (msg : List Nat) (vk_i : P) (sk_i : F) (r : F) : P × Proof F :=
  let g := G
  let ph := hash_to_curve_point_keccak F G keccak256 msg
  let v_i := sk_i • ph
  let com1 := r • g
  let com2 := r • ph
  let ch := challenge_keccak F keccak256 point_bytes_compressed g ph vk_i v_i com1 com2
  let rs := sk_i * ch + r
  (v_i, ⟨ch, rs⟩)

/-- utils.rs `verify_eq`: recompute the commitments from (ch, rs) and compare
the recomputed challenge with ch. -/
def verify_eq (msg : List Nat) (vk_i v_i : P) (pf : Proof F) : Bool :=
  let g := G
  let ph := hash_to_curve_point_keccak F G keccak256 msg
  let minus_ch := (0 : F) - pf.ch
  let com1_p := pf.rs • g + minus_ch • vk_i
  let com2_p := pf.rs • ph + minus_ch • v_i
  let ch2 := challenge_keccak F keccak256 point_bytes_compressed g ph vk_i v_i com1_p com2_p
  decide (ch2 = pf.ch)

/-- utils.rs `verify_eq` with every partial primitive of the code base lifted
to Option (a Rust panic is `none`).  The only panicking primitive in utils.rs
is the `.unwrap()` on scalar inversion; verify_eq performs subtraction, scalar
multiplications, point additions and one challenge computation, none of which
can fail, so no binding in this body is fallible. -/
def verify_eq_checked (msg : List Nat) (vk_i v_i : P) (pf : Proof F) : Option Bool := do
  let g := G
  let ph := hash_to_curve_point_keccak F G keccak256 msg
  let minus_ch := (0 : F) - pf.ch
  let com1_p := pf.rs • g + minus_ch • vk_i
  let com2_p := pf.rs • ph + minus_ch • v_i
  let ch2 := challenge_keccak F keccak256 point_bytes_compressed g ph vk_i v_i com1_p com2_p
  pure (decide (ch2 = pf.ch))

/-- dkg.rs `DkgConfig`. -/
structure DkgConfig where
  max_signers : Nat
  min_signers : Nat

/-- dkg.rs `DkgConfig::new`: the three bail! guards in source order.  The u16
arguments are modelled as naturals (only order comparisons are performed). -/
def DkgConfig.new (max_signers min_signers : Nat) : Except String DkgConfig :=
  if max_signers < 2 then Except.error "max_signers must be >= 2"
  else if min_signers < 2 then Except.error "min_signers must be >= 2"
  else if min_signers > max_signers then Except.error "min_signers must be <= max_signers"
  else Except.ok ⟨max_signers, min_signers⟩

/-- ddh_dvrf.rs `id_as_u64`: the low 8 bytes of the 32-byte big-endian
identifier encoding, i.e. the identifier value modulo 2^64.  Identifiers are
modelled by their integer value. -/
def id_as_u64 (id : Nat) : Nat :=
  id % 2 ^ 64

/-- ddh_dvrf.rs `scalar_from_keypackage`: a KeyPackage of the external frost
crate is modelled by the 32-byte serialization of its signing share, which the
source copies and reduces modulo r. -/
def scalar_from_keypackage (kp : List Nat) : F :=
  reduce_bytes F kp

/-- ddh_dvrf.rs `vk_share_from_public_pkg` without its `.expect`: the
PublicKeyPackage of the external frost crate is modelled by its map of
verifying shares (an association list), and `to_element` is the identity in
the model.  The `.expect` panic is propagated by the caller as `none`. -/
def vk_share_from_public_pkg (pkpkg : List (Nat × P)) (id : Nat) : Option P :=
  pkpkg.lookup id

/-- The body of the `for id in signers` loop of ddh_dvrf.rs
`run_ddh_dvrf_once`, threading the pair (good_points,
exported_points_for_debug) and turning each panic site into `none`:
`key_packages.get(id).expect(..)`, the `.expect` inside
vk_share_from_public_pkg, and the `assert!(ok)` self-check. -/
def dvrf_step (msg : List Nat) (key_packages : List (Nat × List Nat))
    (public_key_package : List (Nat × P)) (nonce : Nat → F)
    (st : List (Nat × P) × List (Nat × P)) (id : Nat) :
    Option (List (Nat × P) × List (Nat × P)) := do
  let kp ← key_packages.lookup id
  let sk_i := scalar_from_keypackage F kp
  let vk_i ← vk_share_from_public_pkg public_key_package id
  let vp := prove_eq F G keccak256 point_bytes_compressed msg vk_i sk_i (nonce id)
  if verify_eq F G keccak256 point_bytes_compressed msg vk_i vp.1 vp.2 then
    pure (st.1 ++ [(id_as_u64 id, vp.1)], st.2 ++ [(id, vp.1)])
  else
    none

/-- ddh_dvrf.rs `run_ddh_dvrf_once`: loop over the selected signers producing
(v_i, pi_i) with self-verification, then Lagrange-combine the collected
points.  The per-signer nonces drawn from OsRng are an explicit assignment
`nonce : Nat → F`. -/
def run_ddh_dvrf_once (msg : List Nat) (key_packages : List (Nat × List Nat))
    (public_key_package : List (Nat × P)) (signers : List Nat) (nonce : Nat → F) :
    Option (P × List (Nat × P)) := do
  let st ← signers.foldlM
    (dvrf_step F G keccak256 point_bytes_compressed msg key_packages public_key_package nonce)
    ([], [])
  let v ← lagrange_combine_points F st.1
  pure (v, st.2)

/-- The transcript byte stream exactly as section 6 of the design document
spells it: the six compressed 33-byte encodings concatenated in the order
G, PH, vk, v, com1, com2, nothing else (in particular no domain-separation
tag).  Written from the spec text, to be compared with `challenge_keccak`. -/
def transcript_bytes_spec (g ph vk v com1 com2 : P) : List Nat :=
  point_bytes_compressed g ++ point_bytes_compressed ph ++ point_bytes_compressed vk ++
    point_bytes_compressed v ++ point_bytes_compressed com1 ++ point_bytes_compressed com2

instance : Fact (Nat.Prime 5) := ⟨by norm_num⟩

instance : Fact (Nat.Prime 7) := ⟨by norm_num⟩

/-- Concrete stand-in for the abstract Keccak-256 parameter, used to evaluate
the development on small instances; the algebraic statements hold for every
choice of hash. -/
def wKeccak : List Nat → List Nat := fun l => l

/-- Concrete stand-in for SEC1 compression over the toy group ZMod 5. -/
def wCompress : ZMod 5 → List Nat := fun p => [p.val]

/-- Concrete 33-byte-wide stand-in for SEC1 compression over ZMod 5. -/
def wCompress33 : ZMod 5 → List Nat := fun p => p.val :: List.replicate 32 0

/-- Completeness of the sigma protocol, stated at vk = sk • G; shared by the
completeness and determinism claims.  The verifier recomputes
com1 = rs • G - ch • vk and com2 = rs • PH - ch • v, which collapse to
r • G and r • PH, so the recomputed challenge is the prover's challenge. -/
theorem verify_eq_after_prove_eq (msg : List Nat) (sk r : F) :
    verify_eq F G keccak256 point_bytes_compressed msg (sk • G)
      (prove_eq F G keccak256 point_bytes_compressed msg (sk • G) sk r).1
      (prove_eq F G keccak256 point_bytes_compressed msg (sk • G) sk r).2 = true := by
  have key : ∀ (q : P) (ch : F), (sk * ch + r) • q + ((0 : F) - ch) • (sk • q) = r • q := by
    intro q ch
    rw [smul_smul, ← add_smul]
    congr 1
    ring
  simp only [prove_eq, verify_eq]
  simp only [key]
  simp

/-- C1.  NIZK completeness: for every message, secret scalar sk and prover
nonce r, if vk = sk • G then verify_eq accepts the output of prove_eq. -/
theorem nizk_completeness (msg : List Nat) (sk r : F) (vk : P) (hvk : vk = sk • G) :
    verify_eq F G keccak256 point_bytes_compressed msg vk
      (prove_eq F G keccak256 point_bytes_compressed msg vk sk r).1
      (prove_eq F G keccak256 point_bytes_compressed msg vk sk r).2 = true := by
  subst hvk
  exact verify_eq_after_prove_eq F G keccak256 point_bytes_compressed msg sk r

/-- Witness for C1 at a concrete instance: F = P = ZMod 5, G = 1, sk = 2,
vk = 2 = sk • G, nonce r = 3, empty message. -/
theorem nizk_completeness_witness :
    (2 : ZMod 5) = (2 : ZMod 5) • (1 : ZMod 5) ∧
      verify_eq (ZMod 5) 1 wKeccak wCompress [] 2
        (prove_eq (ZMod 5) 1 wKeccak wCompress [] 2 2 3).1
        (prove_eq (ZMod 5) 1 wKeccak wCompress [] 2 2 3).2 = true :=
  ⟨by decide, nizk_completeness (ZMod 5) 1 wKeccak wCompress [] 2 3 2 (by decide)⟩

/-- C6.  Transcript format: challenge_keccak is the big-endian reduction
modulo r of Keccak-256 of the concatenation of the six compressed encodings
in the exact order G, PH, vk, v, com1, com2 with no domain-separation tag;
when compression is 33 bytes wide the stream is 198 bytes long. -/
theorem challenge_transcript_format
    (h33 : ∀ q : P, (point_bytes_compressed q).length = 33)
    (g ph vk v com1 com2 : P) :
    challenge_keccak F keccak256 point_bytes_compressed g ph vk v com1 com2 =
        reduce_bytes F
          (keccak256 (transcript_bytes_spec point_bytes_compressed g ph vk v com1 com2)) ∧
      (transcript_bytes_spec point_bytes_compressed g ph vk v com1 com2).length = 198 := by
  constructor
  · simp [challenge_keccak, transcript_bytes_spec, List.foldl_cons, List.foldl_nil,
      List.append_assoc, List.nil_append]
  · simp [transcript_bytes_spec, List.length_append, h33]

/-- Witness for C6 with a 33-byte-wide concrete compression over ZMod 5. -/
theorem challenge_transcript_format_witness :
    challenge_keccak (ZMod 5) wKeccak wCompress33 0 0 0 0 0 0 =
        reduce_bytes (ZMod 5)
          (wKeccak (transcript_bytes_spec wCompress33 0 0 0 0 0 0)) ∧
      (transcript_bytes_spec wCompress33 (0 : ZMod 5) 0 0 0 0 0).length = 198 :=
  challenge_transcript_format (ZMod 5) wKeccak wCompress33
    (by intro q; simp [wCompress33]) 0 0 0 0 0 0

/-- C7.  Hash-to-curve definition: hash_to_curve_point_keccak m is
G scaled by hash_to_scalar_keccak m, and hash_to_scalar_keccak m is the
big-endian value of keccak256(m) reduced modulo r (the Nat cast into F). -/
theorem hash_to_curve_is_generator_mul (data : List Nat) :
    hash_to_curve_point_keccak F G keccak256 data
        = hash_to_scalar_keccak F keccak256 data • G ∧
      hash_to_scalar_keccak F keccak256 data = ((bytesToNatBE (keccak256 data) : Nat) : F) :=
  ⟨rfl, rfl⟩

/-- C8.  Config validation: DkgConfig::new succeeds exactly on
2 ≤ max_signers, 2 ≤ min_signers, min_signers ≤ max_signers, and returns an
error on every other pair. -/
theorem dkg_config_new_ok_iff (ma mi : Nat) :
    (DkgConfig.new ma mi = Except.ok ⟨ma, mi⟩ ↔ 2 ≤ ma ∧ 2 ≤ mi ∧ mi ≤ ma) ∧
      ((∃ e, DkgConfig.new ma mi = Except.error e) ↔ ¬(2 ≤ ma ∧ 2 ≤ mi ∧ mi ≤ ma)) := by
  unfold DkgConfig.new
  split_ifs with h1 h2 h3 <;> simp <;> omega

/-- C9.  Totality of verification: with every partial primitive of the code
base lifted to Option, verify_eq still returns a boolean on all inputs (its
body contains no fallible operation), so it never panics. -/
theorem verify_eq_total (msg : List Nat) (vk_i v_i : P) (pf : Proof F) :
    verify_eq_checked F G keccak256 point_bytes_compressed msg vk_i v_i pf
      = some (verify_eq F G keccak256 point_bytes_compressed msg vk_i v_i pf) := rfl

/-- C10.  Singleton combine is the identity: for every index i, including
i = 0, the single guarded loop iteration is skipped, so num = den = 1,
lambda = 1 and the combiner returns exactly the input point. -/
theorem lagrange_combine_singleton (i : Nat) (p : P) :
    lagrange_combine_points F [(i, p)] = some p := by
  simp [lagrange_combine_points, lagrangeNumDen, scalarInvert, List.foldlM]

/-- Evaluation of the num/den accumulation loop: each guarded iteration
contributes a factor, so the fold from (a, b) multiplies a and b by the
products of the guarded factors. -/
theorem lagrangeNumDen_loop (i : Nat) (ids : List Nat) (a b : F) :
    ids.foldl
      (fun nd j => if i ≠ j then (nd.1 * (j : F), nd.2 * ((j : F) - (i : F))) else nd)
      (a, b)
      = (a * ((ids.map fun j => if i ≠ j then (j : F) else 1).prod),
         b * ((ids.map fun j => if i ≠ j then ((j : F) - (i : F)) else 1).prod)) := by
  induction ids generalizing a b with
  | nil => simp
  | cons j tl ih =>
      by_cases h : i ≠ j
      · simp only [List.foldl_cons, List.map_cons, List.prod_cons, if_pos h]
        rw [ih]
        simp [mul_assoc]
      · simp only [List.foldl_cons, List.map_cons, List.prod_cons, if_neg h]
        rw [ih]
        simp

/-- Closed form of lagrangeNumDen. -/
theorem lagrangeNumDen_eq (i : Nat) (ids : List Nat) :
    lagrangeNumDen F ids i
      = ((ids.map fun j => if i ≠ j then (j : F) else 1).prod,
         (ids.map fun j => if i ≠ j then ((j : F) - (i : F)) else 1).prod) := by
  unfold lagrangeNumDen
  rw [lagrangeNumDen_loop]
  simp

/-- The denominator accumulated for index i is nonzero as soon as no other
index of the list collides with i in the scalar field.  In the source field
ZMod r this holds for all u64 indices, because u64 values are below r. -/
theorem lagrangeDen_ne_zero (i : Nat) (ids : List Nat)
    (h : ∀ j ∈ ids, ((j : F) = (i : F)) → j = i) :
    (lagrangeNumDen F ids i).2 ≠ 0 := by
  rw [lagrangeNumDen_eq]
  intro hz
  rw [List.prod_eq_zero_iff] at hz
  obtain ⟨j, hj, hj0⟩ := List.mem_map.mp hz
  by_cases hij : i ≠ j
  · rw [if_pos hij] at hj0
    exact hij ((h j hj (by rwa [sub_eq_zero] at hj0)).symm)
  · rw [if_neg hij] at hj0
    exact one_ne_zero (α := F) hj0

/-- Evaluation of the point-accumulation loop of lagrange_combine_points:
when every denominator is nonzero the fold succeeds and returns the starting
point plus the lambda-weighted sum of the input points. -/
theorem lagrange_fold_eq (ids : List Nat) (pts : List (Nat × P)) (acc : P)
    (h : ∀ ip ∈ pts, (lagrangeNumDen F ids ip.1).2 ≠ 0) :
    pts.foldlM
      (fun (result : P) ip =>
        (scalarInvert F (lagrangeNumDen F ids ip.1).2).map
          (fun dinv => result + ((lagrangeNumDen F ids ip.1).1 * dinv) • ip.2))
      acc
      = some (acc + (pts.map fun ip =>
          ((lagrangeNumDen F ids ip.1).1 * ((lagrangeNumDen F ids ip.1).2)⁻¹) • ip.2).sum) := by
  induction pts generalizing acc with
  | nil => simp
  | cons ip tl ih =>
      have hd : (lagrangeNumDen F ids ip.1).2 ≠ 0 := h ip (by simp)
      rw [List.foldlM_cons]
      rw [show scalarInvert F (lagrangeNumDen F ids ip.1).2
            = some ((lagrangeNumDen F ids ip.1).2)⁻¹ from if_neg hd]
      simp only [Option.map_some']
      show tl.foldlM _ _ = _
      rw [ih _ (fun q hq => h q (List.mem_cons_of_mem ip hq))]
      simp [add_assoc]

/-- Amended C4.  Totality of the combiner: whenever the field casts of the indices
separate them (which is always the case for u64 indices in the source field
ZMod r), lagrange_combine_points returns a point, duplicated indices
included — the i != j guard skips every colliding factor, so no denominator
vanishes and the unwrap never fires. -/
theorem lagrange_combine_points_isSome (pts : List (Nat × P))
    (hinj : ∀ p ∈ pts, ∀ q ∈ pts, ((p.1 : F) = (q.1 : F)) → p.1 = q.1) :
    (lagrange_combine_points F pts).isSome = true := by
  simp only [lagrange_combine_points]
  rw [lagrange_fold_eq]
  · rfl
  · intro ip hip
    apply lagrangeDen_ne_zero
    intro j hj hcast
    obtain ⟨q, hq, hq1⟩ := List.mem_map.mp hj
    subst hq1
    exact hinj q hq ip hip hcast

/-- Counterexample to C4: two pairs with equal u64 index 1 do not make the
combiner signal an error; it returns a point. -/
theorem lagrange_duplicate_counterexample :
    (lagrange_combine_points (ZMod 5) [((1 : Nat), (1 : ZMod 5)), (1, 2)]).isSome = true := by
  decide

/-- Witness for the amended C4 applied to the duplicated-index input. -/
theorem lagrange_total_witness :
    (∀ p ∈ [((1 : Nat), (1 : ZMod 5)), (1, 2)], ∀ q ∈ [((1 : Nat), (1 : ZMod 5)), (1, 2)],
        ((p.1 : ZMod 5) = (q.1 : ZMod 5)) → p.1 = q.1) ∧
      (lagrange_combine_points (ZMod 5) [((1 : Nat), (1 : ZMod 5)), (1, 2)]).isSome = true :=
  ⟨by decide, lagrange_combine_points_isSome (ZMod 5) _ (by decide)⟩

/-- One iteration of the run_ddh_dvrf_once loop under the key-material
invariant vk_i = sk_i • G guaranteed by the DKG: both lookups succeed, the
self-verification passes by completeness, and the appended point is
sk_i • PH(msg) — independent of the nonce. -/
theorem dvrf_step_eval (msg : List Nat) (kp : List (Nat × List Nat))
    (pkp : List (Nat × P)) (nonce : Nat → F) (st : List (Nat × P) × List (Nat × P))
    (id : Nat) (bs : List Nat)
    (hkp : kp.lookup id = some bs)
    (hvk : pkp.lookup id = some (scalar_from_keypackage F bs • G)) :
    dvrf_step F G keccak256 point_bytes_compressed msg kp pkp nonce st id
      = some (st.1 ++ [(id_as_u64 id,
            scalar_from_keypackage F bs • hash_to_curve_point_keccak F G keccak256 msg)],
          st.2 ++ [(id,
            scalar_from_keypackage F bs • hash_to_curve_point_keccak F G keccak256 msg)]) := by
  simp only [dvrf_step, vk_share_from_public_pkg, hkp, hvk, Option.bind_eq_bind,
    Option.some_bind]
  rw [verify_eq_after_prove_eq F G keccak256 point_bytes_compressed msg
    (scalar_from_keypackage F bs) (nonce id)]
  rfl

/-- Under the key-material invariant the signer loop succeeds on every signer
list, and the produced index list is the id_as_u64 image of the signers. -/
theorem dvrf_fold_eval (msg : List Nat) (kp : List (Nat × List Nat))
    (pkp : List (Nat × P)) (nonce : Nat → F) (signers : List Nat)
    (st : List (Nat × P) × List (Nat × P))
    (hS : ∀ id ∈ signers, ∃ bs, kp.lookup id = some bs ∧
        pkp.lookup id = some (scalar_from_keypackage F bs • G)) :
    ∃ st', signers.foldlM
        (dvrf_step F G keccak256 point_bytes_compressed msg kp pkp nonce) st = some st' ∧
      st'.1.map Prod.fst = st.1.map Prod.fst ++ signers.map id_as_u64 := by
  induction signers generalizing st with
  | nil => exact ⟨st, rfl, by simp⟩
  | cons id tl ih =>
      obtain ⟨bs, hkp, hvk⟩ := hS id (List.mem_cons_self id tl)
      obtain ⟨st', hfold, hidx⟩ :=
        ih (st.1 ++ [(id_as_u64 id,
              scalar_from_keypackage F bs • hash_to_curve_point_keccak F G keccak256 msg)],
            st.2 ++ [(id,
              scalar_from_keypackage F bs • hash_to_curve_point_keccak F G keccak256 msg)])
          (fun q hq => hS q (List.mem_cons_of_mem id hq))
      refine ⟨st', ?_, ?_⟩
      · rw [List.foldlM_cons,
          dvrf_step_eval F G keccak256 point_bytes_compressed msg kp pkp nonce st id bs hkp hvk]
        exact hfold
      · rw [hidx]
        simp

/-- Under the key-material invariant the signer loop does not depend on the
nonce assignment at all: the exported points are sk_i • PH(msg) and the
self-check passes for every nonce. -/
theorem dvrf_fold_nonce_irrelevant (msg : List Nat) (kp : List (Nat × List Nat))
    (pkp : List (Nat × P)) (signers : List Nat) (st : List (Nat × P) × List (Nat × P))
    (nonce₁ nonce₂ : Nat → F)
    (hS : ∀ id ∈ signers, ∃ bs, kp.lookup id = some bs ∧
        pkp.lookup id = some (scalar_from_keypackage F bs • G)) :
    signers.foldlM
        (dvrf_step F G keccak256 point_bytes_compressed msg kp pkp nonce₁) st
      = signers.foldlM
        (dvrf_step F G keccak256 point_bytes_compressed msg kp pkp nonce₂) st := by
  induction signers generalizing st with
  | nil => rfl
  | cons id tl ih =>
      obtain ⟨bs, hkp, hvk⟩ := hS id (List.mem_cons_self id tl)
      rw [List.foldlM_cons, List.foldlM_cons,
        dvrf_step_eval F G keccak256 point_bytes_compressed msg kp pkp nonce₁ st id bs hkp hvk,
        dvrf_step_eval F G keccak256 point_bytes_compressed msg kp pkp nonce₂ st id bs hkp hvk]
      exact ih _ (fun q hq => hS q (List.mem_cons_of_mem id hq))

/-- Amended C3: run_ddh_dvrf_once performs no subset validation.  The
threshold t is not among its inputs; every signer list whose members have a
KeyPackage and a matching verifying share is processed to a successful
combined output, whatever its size.  (The cast-separation hypothesis on the
u64 indices is automatic in the source field ZMod r.) -/
theorem run_processes_any_subset (msg : List Nat) (kp : List (Nat × List Nat))
    (pkp : List (Nat × P)) (signers : List Nat) (nonce : Nat → F)
    (hS : ∀ id ∈ signers, ∃ bs, kp.lookup id = some bs ∧
        pkp.lookup id = some (scalar_from_keypackage F bs • G))
    (hinj : ∀ i ∈ signers, ∀ j ∈ signers,
        ((id_as_u64 i : F) = (id_as_u64 j : F)) → id_as_u64 i = id_as_u64 j) :
    (run_ddh_dvrf_once F G keccak256 point_bytes_compressed msg kp pkp signers nonce).isSome
      = true := by
  simp only [run_ddh_dvrf_once]
  obtain ⟨st', hfold, hidx⟩ :=
    dvrf_fold_eval F G keccak256 point_bytes_compressed msg kp pkp nonce signers ([], []) hS
  rw [hfold]
  have hlag : (lagrange_combine_points F st'.1).isSome = true := by
    apply lagrange_combine_points_isSome
    intro p hp q hq
    have hp1 : p.1 ∈ st'.1.map Prod.fst := List.mem_map_of_mem Prod.fst hp
    have hq1 : q.1 ∈ st'.1.map Prod.fst := List.mem_map_of_mem Prod.fst hq
    rw [hidx] at hp1 hq1
    simp only [List.map_nil, List.nil_append, List.mem_map] at hp1 hq1
    obtain ⟨i, hi, hip⟩ := hp1
    obtain ⟨j, hj, hjq⟩ := hq1
    rw [← hip, ← hjq]
    exact hinj i hi j hj
  obtain ⟨v, hv⟩ := Option.isSome_iff_exists.mp hlag
  simp [Option.bind_some, hv]

/-- Counterexample to C3: a 3-participant sharing in which the subset [1] of
size 1 — below any sensible threshold, with t not even an input of the
function — is processed without any InvalidSubset error and produces a
combined point. -/
theorem run_no_validation_counterexample :
    (run_ddh_dvrf_once (ZMod 5) 1 wKeccak wCompress []
        [(1, [2]), (2, [3]), (3, [4])] [(1, 2), (2, 3), (3, 4)] [1]
        (fun _ => 3)).isSome = true := by
  decide

/-- Witness for the amended C3 at the same concrete instance. -/
theorem run_processes_any_subset_witness :
    (run_ddh_dvrf_once (ZMod 5) 1 wKeccak wCompress []
        [(1, [2]), (2, [3]), (3, [4])] [(1, 2), (2, 3), (3, 4)] [1, 2]
        (fun _ => 3)).isSome = true :=
  run_processes_any_subset (ZMod 5) 1 wKeccak wCompress []
    [(1, [2]), (2, [3]), (3, [4])] [(1, 2), (2, 3), (3, 4)] [1, 2] (fun _ => 3)
    (by
      intro id hid
      simp only [List.mem_cons, List.not_mem_nil, or_false] at hid
      rcases hid with h | h <;> subst h
      · exact ⟨[2], by decide, by decide⟩
      · exact ⟨[3], by decide, by decide⟩)
    (by decide)

/-- C5.  Determinism up to nonce: the first component of prove_eq is
sk • PH(m) for every nonce, and under the DKG key-material invariant two
runs of run_ddh_dvrf_once with different nonce assignments return the same
combined value and the same per-signer points. -/
theorem dvrf_deterministic_up_to_nonce (msg : List Nat) (kp : List (Nat × List Nat))
    (pkp : List (Nat × P)) (signers : List Nat)
    (hS : ∀ id ∈ signers, ∃ bs, kp.lookup id = some bs ∧
        pkp.lookup id = some (scalar_from_keypackage F bs • G)) :
    (∀ (vk : P) (sk r₁ r₂ : F),
        (prove_eq F G keccak256 point_bytes_compressed msg vk sk r₁).1
            = sk • hash_to_curve_point_keccak F G keccak256 msg ∧
          (prove_eq F G keccak256 point_bytes_compressed msg vk sk r₁).1
            = (prove_eq F G keccak256 point_bytes_compressed msg vk sk r₂).1) ∧
      ∀ nonce₁ nonce₂ : Nat → F,
        run_ddh_dvrf_once F G keccak256 point_bytes_compressed msg kp pkp signers nonce₁
          = run_ddh_dvrf_once F G keccak256 point_bytes_compressed msg kp pkp signers nonce₂ := by
  constructor
  · exact fun vk sk r₁ r₂ => ⟨rfl, rfl⟩
  · intro nonce₁ nonce₂
    simp only [run_ddh_dvrf_once]
    rw [dvrf_fold_nonce_irrelevant F G keccak256 point_bytes_compressed msg kp pkp signers
      ([], []) nonce₁ nonce₂ hS]

/-- Witness for C5: the concrete 3-participant instance run with nonce 3
versus nonce 4. -/
theorem dvrf_deterministic_witness :
    ((prove_eq (ZMod 5) 1 wKeccak wCompress [] 2 2 3).1
        = (2 : ZMod 5) • hash_to_curve_point_keccak (ZMod 5) 1 wKeccak [] ∧
      (prove_eq (ZMod 5) 1 wKeccak wCompress [] 2 2 3).1
        = (prove_eq (ZMod 5) 1 wKeccak wCompress [] 2 2 4).1) ∧
      run_ddh_dvrf_once (ZMod 5) 1 wKeccak wCompress []
          [(1, [2]), (2, [3]), (3, [4])] [(1, 2), (2, 3), (3, 4)] [1, 2] (fun _ => 3)
        = run_ddh_dvrf_once (ZMod 5) 1 wKeccak wCompress []
          [(1, [2]), (2, [3]), (3, [4])] [(1, 2), (2, 3), (3, 4)] [1, 2] (fun _ => 4) := by
  have h := dvrf_deterministic_up_to_nonce (ZMod 5) 1 wKeccak wCompress []
    [(1, [2]), (2, [3]), (3, [4])] [(1, 2), (2, 3), (3, 4)] [1, 2]
    (by
      intro id hid
      simp only [List.mem_cons, List.not_mem_nil, or_false] at hid
      rcases hid with h | h <;> subst h
      · exact ⟨[2], by decide, by decide⟩
      · exact ⟨[3], by decide, by decide⟩)
  exact ⟨h.1 2 2 3 4, h.2 (fun _ => 3) (fun _ => 4)⟩

/-- A sum of scaled copies of one point is the scaled sum. -/
theorem list_smul_sum (g : Nat → F) (l : List Nat) (Pb : P) :
    (l.map fun i => g i • Pb).sum = ((l.map g).sum) • Pb := by
  induction l with
  | nil => simp
  | cons a tl ih => simp [ih, add_smul]

/-- Pointwise bridge between the code's Lagrange factor j * (j - i)⁻¹ and the
evaluation at zero of Mathlib's basis divisor (i - j)⁻¹ * (0 - j). -/
theorem lag_factor_eq (x y : F) : y * (y - x)⁻¹ = (x - y)⁻¹ * (0 - y) := by
  rw [← neg_sub x y, inv_neg, zero_sub]
  ring

/-- The coefficient num * den⁻¹ computed by the code for index i over a
duplicate-free index list is the Lagrange basis polynomial of the node set
evaluated at zero. -/
theorem lagCoeff_eq_basis_eval (l : List Nat) (hnd : l.Nodup) (i : Nat) :
    (lagrangeNumDen F l i).1 * ((lagrangeNumDen F l i).2)⁻¹
      = Polynomial.eval 0 (Lagrange.basis l.toFinset (fun j : Nat => (j : F)) i) := by
  rw [lagrangeNumDen_eq]
  dsimp only
  rw [← List.prod_toFinset _ hnd, ← List.prod_toFinset _ hnd]
  rw [← Finset.prod_filter, ← Finset.prod_filter, Finset.filter_ne]
  rw [← Finset.prod_inv_distrib, ← Finset.prod_mul_distrib]
  simp only [Lagrange.basis, Polynomial.eval_prod, Lagrange.basisDivisor,
    Polynomial.eval_mul, Polynomial.eval_sub, Polynomial.eval_C, Polynomial.eval_X]
  exact Finset.prod_congr rfl fun j hj => lag_factor_eq F (i : F) (j : F)

/-- C2.  Lagrange interpolation in the exponent: for a polynomial f of degree
below t, a base point P and at least t pairwise-distinct nonzero u64 indices
whose field casts separate them (automatic in the source field ZMod r, since
u64 values are below r), combining the shares (i, f(i) • P) yields
f(0) • P — so the result does not depend on which qualifying subset of a
sharing is combined. -/
theorem lagrange_combine_points_interpolates (t : Nat) (f : Polynomial F) (Pb : P)
    (l : List Nat)
    (hne : l ≠ [])
    (hnz : ∀ i ∈ l, i ≠ 0)
    (hu : ∀ i ∈ l, i < 2 ^ 64)
    (hnd : l.Nodup)
    (hinj : ∀ i ∈ l, ∀ j ∈ l, ((i : F) = (j : F)) → i = j)
    (hdeg : f.degree < t) (ht : t ≤ l.length) :
    lagrange_combine_points F (l.map fun i : Nat => (i, f.eval (i : F) • Pb))
      = some (f.eval 0 • Pb) := by
  have hids : ((l.map fun i : Nat => (i, f.eval (i : F) • Pb)).map Prod.fst) = l := by
    rw [List.map_map]
    show List.map id l = l
    exact List.map_id l
  have hden : ∀ ip ∈ l.map fun i : Nat => (i, f.eval (i : F) • Pb),
      (lagrangeNumDen F ((l.map fun i : Nat => (i, f.eval (i : F) • Pb)).map Prod.fst) ip.1).2 ≠ 0 := by
    intro ip hip
    rw [hids]
    apply lagrangeDen_ne_zero
    intro j hj hcast
    obtain ⟨i, hi, rfl⟩ := List.mem_map.mp hip
    exact hinj j hj i hi hcast
  simp only [lagrange_combine_points]
  rw [lagrange_fold_eq F _ _ _ hden]
  rw [hids, zero_add, List.map_map]
  have hfun : ((fun ip : Nat × P =>
        ((lagrangeNumDen F l ip.1).1 * ((lagrangeNumDen F l ip.1).2)⁻¹) • ip.2)
          ∘ fun i => (i, f.eval (i : F) • Pb))
      = fun i => ((lagrangeNumDen F l i).1 * ((lagrangeNumDen F l i).2)⁻¹
          * f.eval (i : F)) • Pb := by
    funext i
    simp [Function.comp, smul_smul]
  rw [hfun, list_smul_sum]
  congr 1
  rw [← List.sum_toFinset _ hnd]
  have hco : ∀ i ∈ l.toFinset,
      (lagrangeNumDen F l i).1 * ((lagrangeNumDen F l i).2)⁻¹ * f.eval (i : F)
        = f.eval ((fun j : Nat => (j : F)) i)
            * Polynomial.eval 0 (Lagrange.basis l.toFinset (fun j : Nat => (j : F)) i) := by
    intro i hi
    rw [lagCoeff_eq_basis_eval F l hnd i]
    ring
  rw [Finset.sum_congr rfl hco]
  have hInj : Set.InjOn (fun j : Nat => (j : F)) ↑l.toFinset := by
    intro a ha b hb hab
    exact hinj a (List.mem_toFinset.mp ha) b (List.mem_toFinset.mp hb) hab
  have hdeg' : f.degree < (l.toFinset.card : WithBot Nat) := by
    refine lt_of_lt_of_le hdeg ?_
    rw [List.toFinset_card_of_nodup hnd]
    exact_mod_cast ht
  have hf := Lagrange.eq_interpolate hInj hdeg'
  conv_rhs => rw [hf]
  simp [Lagrange.interpolate_apply, Polynomial.eval_finset_sum, mul_comm]

/-- Witness for C2: the smoke test of section 8 of the design document,
f(x) = 3x + 5 with nodes 1, 2, 3 and threshold 2 over ZMod 7. -/
theorem lagrange_interpolates_witness :
    lagrange_combine_points (ZMod 7)
        ([1, 2, 3].map fun i : Nat =>
          (i, (Polynomial.C 3 * Polynomial.X + Polynomial.C 5 :
              Polynomial (ZMod 7)).eval (i : ZMod 7) • (1 : ZMod 7)))
      = some ((Polynomial.C 3 * Polynomial.X + Polynomial.C 5 :
          Polynomial (ZMod 7)).eval 0 • (1 : ZMod 7)) :=
  lagrange_combine_points_interpolates (ZMod 7) 2
    (Polynomial.C 3 * Polynomial.X + Polynomial.C 5) 1 [1, 2, 3]
    (by decide) (by decide) (by decide) (by decide) (by decide)
    (by exact_mod_cast Polynomial.degree_linear_lt) (by decide)

end DvrfSpec
